import Mathlib

/-!
Verification of the algorithmic core of a retrieval-augmented chatbot.

The embedded code:
* the token-budget-aware embedding batcher `generateEmbeddings`
  (src/lib/openai/embeddings.ts);
* the text segmenter `chunkText` (src/utils/text-chunking.ts);
* the hybrid retriever `retrieveRelevantChunks` (src/app/api/chat/route.ts).

External collaborators (the embedding service, the vector store, the
keyword-search store) are modelled as explicit parameters, so every
function here is a pure executable definition of the code's control flow.
-/

namespace Batcher

/-- Token estimation from src/lib/openai/embeddings.ts:
`estimateTokens(text) = Math.ceil(text.length / 4)`.
For a natural-number length, `Math.ceil(n / 4) = (n + 3) / 4`. -/
def estimateTokens (text : String) : Nat :=
  (text.length + 3) / 4

/-- The batching ceiling `MAX_TOKENS_PER_BATCH = 250000` from
`generateEmbeddings`. -/
def MAX_TOKENS_PER_BATCH : Nat := 250000

/-- State of the batch-planning loop in `generateEmbeddings`:
the closed `batches`, the running `currentBatch` and its running
token estimate `currentBatchTokens`. -/
structure PlanState where
  batches : List (List String)
  currentBatch : List String
  currentBatchTokens : Nat

/-- One iteration of the `for (const text of texts)` planning loop of
`generateEmbeddings`: if adding the text would exceed the limit and the
current batch is non-empty, close the current batch and start a new one
containing just this text; otherwise append to the current batch. -/
def planStep (st : PlanState) (text : String) : PlanState :=
  let textTokens := estimateTokens text
  if MAX_TOKENS_PER_BATCH < st.currentBatchTokens + textTokens ∧ st.currentBatch ≠ [] then
    { batches := st.batches ++ [st.currentBatch]
      currentBatch := [text]
      currentBatchTokens := textTokens }
  else
    { batches := st.batches
      currentBatch := st.currentBatch ++ [text]
      currentBatchTokens := st.currentBatchTokens + textTokens }

/-- The batch plan computed by `generateEmbeddings`: fold the planning
step over the input texts and append the last batch if it has items. -/
def planBatches (texts : List String) : List (List String) :=
  let st := texts.foldl planStep ⟨[], [], 0⟩
  if st.currentBatch ≠ [] then st.batches ++ [st.currentBatch] else st.batches

/-- Estimated-token sum of one batch
(`batch.reduce((sum, text) => sum + estimateTokens(text), 0)`). -/
def batchTokens (b : List String) : Nat :=
  (b.map estimateTokens).sum

/-- The error message thrown by `generateEmbeddings` when the call for
batch `i` (0-based) fails:
`Failed to generate embeddings for batch ${i + 1}: ${error?.message || 'Unknown error'}`.
The upstream error is modelled by its message string; an empty message is
falsy in JavaScript, giving `'Unknown error'`. -/
def batchFailureMessage (i : Nat) (msg : String) : String :=
  "Failed to generate embeddings for batch " ++ toString (i + 1) ++ ": " ++
    (if msg = "" then "Unknown error" else msg)

/-- The sequential batch-execution loop of `generateEmbeddings`, starting
at batch index `i`.  `svc` models one `openai.embeddings.create` call on a
batch: `.ok` is the returned vector list, `.error` a thrown error message.
On failure the loop rethrows immediately (no later batch runs, nothing is
returned); on success the batch results are appended in order. -/
def runBatchesFrom {α : Type} (svc : List String → Except String (List α)) :
    Nat → List (List String) → Except String (List α)
  | _, [] => .ok []
  | i, b :: rest =>
    match svc b with
    | .error e => .error (batchFailureMessage i e)
    | .ok vecs =>
      match runBatchesFrom svc (i + 1) rest with
      | .error e => .error e
      | .ok more => .ok (vecs ++ more)

/-- `generateEmbeddings` from src/lib/openai/embeddings.ts: plan the
batches, then process them strictly sequentially, flattening per-batch
results into `allEmbeddings` (the inter-batch rate-limit delay has no
effect on values and is not modelled). -/
def generateEmbeddings {α : Type} (svc : List String → Except String (List α))
    (texts : List String) : Except String (List α) :=
  runBatchesFrom svc 0 (planBatches texts)

/-- Soundness predicate for a single batch: a multi-text batch respects
the token ceiling, and a text whose own estimate exceeds the ceiling is
alone in its batch. -/
def GoodBatch (b : List String) : Prop :=
  (2 ≤ b.length → batchTokens b ≤ MAX_TOKENS_PER_BATCH) ∧
  (∀ t ∈ b, MAX_TOKENS_PER_BATCH < estimateTokens t → b = [t])

/-- Invariant of the planning loop state. -/
def GoodState (st : PlanState) : Prop :=
  st.currentBatchTokens = batchTokens st.currentBatch ∧
  GoodBatch st.currentBatch ∧
  ∀ b ∈ st.batches, GoodBatch b

theorem goodBatch_singleton (t : String) : GoodBatch [t] := by
  constructor
  · intro h; simp at h
  · intro t' ht' _; simp at ht'; simp [ht']

theorem goodState_planStep (st : PlanState) (t : String) (h : GoodState st) :
    GoodState (planStep st t) := by
  obtain ⟨htok, hcur, hbatches⟩ := h
  unfold planStep
  by_cases hc : MAX_TOKENS_PER_BATCH < st.currentBatchTokens + estimateTokens t ∧
      st.currentBatch ≠ []
  · rw [if_pos hc]
    refine ⟨?_, goodBatch_singleton t, ?_⟩
    · simp [batchTokens]
    · intro b hb
      rcases List.mem_append.mp hb with hb | hb
      · exact hbatches b hb
      · rw [List.mem_singleton.mp hb]; exact hcur
  · rw [if_neg hc]
    have htok' : st.currentBatchTokens + estimateTokens t = batchTokens (st.currentBatch ++ [t]) := by
      simp [batchTokens, htok]
    refine ⟨htok', ?_, hbatches⟩
    by_cases hnil : st.currentBatch = []
    · show GoodBatch (st.currentBatch ++ [t])
      rw [hnil]
      simpa using goodBatch_singleton t
    · have hle : st.currentBatchTokens + estimateTokens t ≤ MAX_TOKENS_PER_BATCH := by
        by_contra hgt
        exact hc ⟨Nat.lt_of_not_le (fun hle => hgt (by omega)), hnil⟩
      constructor
      · intro _
        rw [← htok']; exact hle
      · intro t' ht' hover
        exfalso
        have hmem : estimateTokens t' ∈ (st.currentBatch ++ [t]).map estimateTokens :=
          List.mem_map.mpr ⟨t', ht', rfl⟩
        have hle' : estimateTokens t' ≤ batchTokens (st.currentBatch ++ [t]) :=
          List.single_le_sum (fun x _ => Nat.zero_le x) _ hmem
        rw [← htok'] at hle'
        omega

theorem goodState_foldl (texts : List String) (st : PlanState) (h : GoodState st) :
    GoodState (texts.foldl planStep st) := by
  induction texts generalizing st with
  | nil => exact h
  | cons t rest ih => exact ih _ (goodState_planStep st t h)

theorem planBatches_goodBatch (texts : List String) :
    ∀ b ∈ planBatches texts, GoodBatch b := by
  have hinit : GoodState ⟨[], [], 0⟩ := by
    refine ⟨rfl, ⟨?_, ?_⟩, ?_⟩ <;> simp [batchTokens]
  have hfin := goodState_foldl texts ⟨[], [], 0⟩ hinit
  obtain ⟨-, hcur, hbatches⟩ := hfin
  intro b hb
  unfold planBatches at hb
  by_cases hnil : (texts.foldl planStep ⟨[], [], 0⟩).currentBatch ≠ []
  · rw [if_pos hnil] at hb
    rcases List.mem_append.mp hb with hb | hb
    · exact hbatches b hb
    · rw [List.mem_singleton.mp hb]; exact hcur
  · rw [if_neg hnil] at hb
    exact hbatches b hb

theorem foldl_planStep_flatten (texts : List String) (st : PlanState) :
    (texts.foldl planStep st).batches.flatten ++ (texts.foldl planStep st).currentBatch =
      st.batches.flatten ++ st.currentBatch ++ texts := by
  induction texts generalizing st with
  | nil => simp
  | cons t rest ih =>
    rw [List.foldl_cons, ih (planStep st t)]
    unfold planStep
    by_cases hc : MAX_TOKENS_PER_BATCH < st.currentBatchTokens + estimateTokens t ∧
        st.currentBatch ≠ []
    · rw [if_pos hc]; simp
    · rw [if_neg hc]; simp

/-- The batch plan partitions the input in order. -/
theorem planBatches_flatten (texts : List String) :
    (planBatches texts).flatten = texts := by
  have h := foldl_planStep_flatten texts ⟨[], [], 0⟩
  simp at h
  unfold planBatches
  by_cases hnil : (texts.foldl planStep ⟨[], [], 0⟩).currentBatch ≠ []
  · rw [if_pos hnil]
    rw [List.flatten_append]
    simpa using h
  · rw [if_neg hnil]
    push_neg at hnil
    rw [hnil] at h
    simpa using h

theorem runBatchesFrom_all_ok {α : Type} (svc : List String → Except String (List α))
    (f : String → α) (hsvc : ∀ b, svc b = .ok (b.map f)) :
    ∀ (bs : List (List String)) (i : Nat),
      runBatchesFrom svc i bs = .ok (bs.flatten.map f) := by
  intro bs
  induction bs with
  | nil => intro i; simp [runBatchesFrom]
  | cons b rest ih =>
    intro i
    rw [runBatchesFrom, hsvc b, ih (i + 1)]
    simp

theorem runBatchesFrom_fail {α : Type} (svc : List String → Except String (List α))
    (pre : List (List String)) (b : List String) (rest : List (List String))
    (e : String) (hpre : ∀ b' ∈ pre, ∃ v, svc b' = .ok v) (hb : svc b = .error e) :
    ∀ i, runBatchesFrom svc i (pre ++ b :: rest) = .error (batchFailureMessage (i + pre.length) e) := by
  induction pre with
  | nil =>
    intro i
    rw [List.nil_append, runBatchesFrom, hb]
    simp
  | cons p pre' ih =>
    intro i
    obtain ⟨v, hv⟩ := hpre p (by simp)
    rw [List.cons_append, runBatchesFrom, hv]
    have hpre' : ∀ b' ∈ pre', ∃ v, svc b' = .ok v := fun b' hb' => hpre b' (by simp [hb'])
    rw [ih hpre' (i + 1)]
    simp
    congr 1
    omega

end Batcher

namespace Batcher

/-- C4: the batch plan computed by embedMany partitions the input in
order, so concatenating per-batch results in batch order reconstructs the
input order; assuming the service returns one vector per input text of a
batch in that batch's order (modelled by a per-text function `f`), the
output sequence is exactly the input list mapped through the service, so
it has the same length as the input and position `i` corresponds to input
text `i`. -/
theorem c4_embedMany_order (texts : List String) {α : Type} (f : String → α)
    (svc : List String → Except String (List α))
    (hsvc : ∀ b, svc b = .ok (b.map f)) :
    (planBatches texts).flatten = texts ∧
    generateEmbeddings svc texts = .ok (texts.map f) ∧
    ∀ out, generateEmbeddings svc texts = .ok out → out.length = texts.length := by
  have hflat := planBatches_flatten texts
  have hrun := runBatchesFrom_all_ok svc f hsvc (planBatches texts) 0
  rw [hflat] at hrun
  refine ⟨hflat, hrun, ?_⟩
  intro out hout
  rw [generateEmbeddings] at hout
  rw [hrun] at hout
  cases hout
  simp

/-- C4 witness: a concrete two-text input with a concrete service. -/
theorem c4_embedMany_order_witness :
    (∀ b, (fun b : List String => (.ok (b.map String.length) : Except String (List Nat))) b
        = .ok (b.map String.length)) ∧
    generateEmbeddings (fun b : List String => .ok (b.map String.length)) ["ab", "c"]
      = .ok [2, 1] := by
  refine ⟨fun b => rfl, ?_⟩
  have h := (c4_embedMany_order ["ab", "c"] String.length
    (fun b => .ok (b.map String.length)) (fun b => rfl)).2.1
  rw [h]
  rfl

/-- C5: in the plan produced by embedMany with
`estimatedTokens(text) = ceil(len/4)` and ceiling 250000, every batch of
two or more texts has estimated-token sum at most 250000; every input
text is placed in exactly one batch, never dropped and never split
(flattening the plan gives back the input); and a text whose own estimate
exceeds the ceiling forms a one-item batch by itself. -/
theorem c5_batch_plan_sound (texts : List String) :
    (∀ b ∈ planBatches texts, 2 ≤ b.length → batchTokens b ≤ 250000) ∧
    (planBatches texts).flatten = texts ∧
    (∀ b ∈ planBatches texts, ∀ t ∈ b, 250000 < estimateTokens t → b = [t]) := by
  refine ⟨?_, planBatches_flatten texts, ?_⟩
  · intro b hb hlen
    exact (planBatches_goodBatch texts b hb).1 hlen
  · intro b hb t ht hover
    exact (planBatches_goodBatch texts b hb).2 t ht hover

/-- A text of 1000004 characters, whose token estimate 250001 exceeds the
250000 ceiling. -/
def oversizedText : String := String.mk (List.replicate 1000004 'a')

theorem estimateTokens_eq (s : String) : estimateTokens s = (s.length + 3) / 4 := rfl

theorem estimateTokens_oversizedText : estimateTokens oversizedText = 250001 := by
  have hlen : oversizedText.length = 1000004 := by
    show (String.mk (List.replicate 1000004 'a')).length = 1000004
    rw [String.length_mk, List.length_replicate]
  rw [estimateTokens_eq, hlen]

theorem planBatches_singleton (t : String) : planBatches [t] = [[t]] := by
  simp [planBatches, planStep]

/-- C5 witness: a two-text batch under the ceiling and an oversized
single-text batch. -/
theorem c5_batch_plan_sound_witness :
    (planBatches ["aaaaaaaa", "bb"]).flatten = ["aaaaaaaa", "bb"] ∧
    batchTokens ["aaaaaaaa", "bb"] ≤ 250000 ∧
    250000 < estimateTokens oversizedText ∧
    ([oversizedText] : List String) = [oversizedText] := by
  refine ⟨(c5_batch_plan_sound ["aaaaaaaa", "bb"]).2.1, ?_, ?_, ?_⟩
  · exact (c5_batch_plan_sound ["aaaaaaaa", "bb"]).1 ["aaaaaaaa", "bb"] (by decide) (by decide)
  · rw [estimateTokens_oversizedText]; omega
  · refine (c5_batch_plan_sound [oversizedText]).2.2 [oversizedText] ?_ oversizedText ?_ ?_
    · rw [planBatches_singleton]; simp
    · simp
    · rw [estimateTokens_oversizedText]; omega

/-- C8: if the service call for some batch fails (all earlier batches
having succeeded), embedMany aborts with the single error naming the
failing batch index (1-based, `i + 1`) and carrying the upstream detail;
it never returns a partial embedding sequence and never skips the failed
batch. -/
theorem c8_batch_failure_aborts {α : Type} (texts : List String)
    (svc : List String → Except String (List α))
    (pre : List (List String)) (b : List String) (rest : List (List String)) (e : String)
    (hplan : planBatches texts = pre ++ b :: rest)
    (hpre : ∀ b' ∈ pre, ∃ v, svc b' = .ok v)
    (hb : svc b = .error e) :
    generateEmbeddings svc texts = .error (batchFailureMessage pre.length e) ∧
    ∀ out, generateEmbeddings svc texts ≠ .ok out := by
  have h := runBatchesFrom_fail svc pre b rest e hpre hb 0
  rw [Nat.zero_add] at h
  rw [generateEmbeddings, hplan]
  refine ⟨h, ?_⟩
  intro out hout
  rw [h] at hout
  cases hout

/-- C8 witness: a service that fails on its only batch. -/
theorem c8_batch_failure_aborts_witness :
    generateEmbeddings (fun _ : List String => (.error "boom" : Except String (List Nat))) ["x"]
      = .error (batchFailureMessage 0 "boom") ∧
    batchFailureMessage 0 "boom" = "Failed to generate embeddings for batch 1: boom" := by
  refine ⟨?_, by decide⟩
  exact (c8_batch_failure_aborts ["x"] _ [] ["x"] [] "boom" (by decide)
    (by intro b' hb'; simp at hb') rfl).1

end Batcher

namespace Retriever

/-- A retrieved chunk as handled by `retrieveRelevantChunks` in
src/app/api/chat/route.ts: the vector search returns
`{id, document_id, content, similarity}` rows and the keyword fallback
builds the same shape.  Identifiers are opaque (modelled as naturals) and
the floating-point similarity is modelled as a rational. -/
structure RetrievedChunk where
  id : Nat
  documentId : Nat
  content : String
  similarity : ℚ
deriving DecidableEq, Repr

/-- A raw row returned by the keyword text search
(`.select('id, document_id, content')`), before a similarity is attached. -/
structure ChunkRow where
  id : Nat
  documentId : Nat
  content : String
deriving DecidableEq, Repr

/-- Split a character list at each whitespace character (accumulator holds
the current token reversed). -/
def splitWsAux (cur : List Char) : List Char → List (List Char)
  | [] => [cur.reverse]
  | c :: rest =>
    if c.isWhitespace then cur.reverse :: splitWsAux [] rest
    else splitWsAux (c :: cur) rest

def splitWs (t : List Char) : List (List Char) := splitWsAux [] t

/-- Keyword derivation from the query in `retrieveRelevantChunks`:
`query.toLowerCase().split(/\s+/).filter(word => word.length > 3).slice(0, 5)`.
Lowercasing is modelled per character; splitting on the regex `\s+` can
differ from splitting at each whitespace character only by empty tokens,
which the `length > 3` filter removes either way. -/
def keywordsOf (query : String) : List (List Char) :=
  ((splitWs (query.data.map Char.toLower)).filter (fun w => 3 < w.length)).take 5

/-- The vector result list actually used downstream: a search error leaves
`data` null (`none`), and the code reads `vectorResults || []`. -/
def vectorList (vectorResults : Option (List RetrievedChunk)) : List RetrievedChunk :=
  vectorResults.getD []

/-- The keyword-search query is issued iff
`!vectorResults || vectorResults.length < 3` and the joined
`keywordConditions` string is non-empty, i.e. at least one keyword
survived derivation. -/
def keywordFallbackRuns (vectorResults : Option (List RetrievedChunk)) (query : String) : Bool :=
  (vectorResults.isNone || decide ((vectorList vectorResults).length < 3)) &&
    !(keywordsOf query).isEmpty

/-- The default similarity `0.5` attached to keyword matches. -/
def keywordDefaultSimilarity : ℚ := 0.5

/-- The keyword-fallback result list: when the fallback runs and the text
search succeeds (`!textError && textResults`), each returned row gets the
fixed default similarity; otherwise the list stays empty. -/
def keywordResults (vectorResults : Option (List RetrievedChunk)) (query : String)
    (textResults : Option (List ChunkRow)) : List RetrievedChunk :=
  if keywordFallbackRuns vectorResults query then
    match textResults with
    | some rows => rows.map (fun c => ⟨c.id, c.documentId, c.content, keywordDefaultSimilarity⟩)
    | none => []
  else []

/-- `uniqueResults.has(key)` over the insertion-ordered map, modelled as a
list ordered by insertion. -/
def hasKey (m : List RetrievedChunk) (key : Nat) : Bool :=
  m.any (fun x => x.id == key)

/-- `uniqueResults.get(key)?.similarity || 0`: the stored similarity of a
present key (a stored 0 and an absent key both read as 0). -/
def storedSimilarity (m : List RetrievedChunk) (key : Nat) : ℚ :=
  ((m.find? (fun x => x.id == key)).map RetrievedChunk.similarity).getD 0

/-- One step of the dedup loop of `retrieveRelevantChunks`:
`if (!uniqueResults.has(key) || (result.similarity && result.similarity > stored)) uniqueResults.set(key, result)`.
JavaScript `Map.set` keeps the original insertion position of an existing
key, modelled by in-place replacement; a new key is appended.  The
truthiness test `result.similarity &&` is `similarity ≠ 0` for a number. -/
def dedupStep (m : List RetrievedChunk) (r : RetrievedChunk) : List RetrievedChunk :=
  if !(hasKey m r.id) ||
      (decide (r.similarity ≠ 0) && decide (storedSimilarity m r.id < r.similarity)) then
    if hasKey m r.id then m.map (fun x => if x.id == r.id then r else x) else m ++ [r]
  else m

/-- The dedup pass over `allResults = [...vectorResults, ...keywordResults]`,
producing `Array.from(uniqueResults.values())` in insertion order. -/
def mergeDedup (l : List RetrievedChunk) : List RetrievedChunk :=
  l.foldl dedupStep []

/-- Stable insertion of one element into a similarity-descending list:
the element goes after every element with similarity at least its own. -/
def insertDesc (r : RetrievedChunk) : List RetrievedChunk → List RetrievedChunk
  | [] => [r]
  | y :: ys => if y.similarity < r.similarity then r :: y :: ys else y :: insertDesc r ys

/-- `.sort((a, b) => (b.similarity || 0) - (a.similarity || 0))`:
a stable sort by similarity descending (JavaScript `Array#sort` is stable;
`s || 0` equals `s` as a number). -/
def sortBySimDesc (l : List RetrievedChunk) : List RetrievedChunk :=
  l.foldl (fun acc r => insertDesc r acc) []

/-- `retrieveRelevantChunks(query, topK = 10)` from src/app/api/chat/route.ts
as a pure function of the collaborator outcomes:
`embedOk = false` models `generateEmbedding` throwing, in which case the
surrounding catch returns `[]`; `vectorResults` is the vector search's
`data` (null on error); `textResults` is the keyword search's rows (none
on error).  Otherwise: merge, deduplicate, sort by similarity descending,
truncate to `topK`. -/
def retrieveRelevantChunks (embedOk : Bool) (vectorResults : Option (List RetrievedChunk))
    (textResults : Option (List ChunkRow)) (query : String) (topK : Nat) : List RetrievedChunk :=
  if embedOk then
    (sortBySimDesc
      (mergeDedup (vectorList vectorResults ++ keywordResults vectorResults query textResults))).take topK
  else []

/-- Sortedness by similarity, descending. -/
def SortedBySimDesc (l : List RetrievedChunk) : Prop :=
  l.Pairwise (fun a b => b.similarity ≤ a.similarity)

theorem keywordDefaultSimilarity_eq : keywordDefaultSimilarity = 1 / 2 := by
  norm_num [keywordDefaultSimilarity]

theorem keywordResults_similarity (vectorResults : Option (List RetrievedChunk)) (query : String)
    (textResults : Option (List ChunkRow)) :
    ∀ r ∈ keywordResults vectorResults query textResults, r.similarity = 1 / 2 := by
  intro r hr
  unfold keywordResults at hr
  by_cases hrun : keywordFallbackRuns vectorResults query
  · rw [if_pos hrun] at hr
    cases textResults with
    | none => simp at hr
    | some rows =>
      simp only [List.mem_map] at hr
      obtain ⟨c, -, hc⟩ := hr
      rw [← hc]
      exact keywordDefaultSimilarity_eq
  · rw [if_neg hrun] at hr
    simp at hr

theorem mem_insertDesc (x r : RetrievedChunk) (l : List RetrievedChunk) :
    x ∈ insertDesc r l ↔ x = r ∨ x ∈ l := by
  induction l with
  | nil => simp [insertDesc]
  | cons y ys ih =>
    unfold insertDesc
    by_cases h : y.similarity < r.similarity
    · rw [if_pos h]; simp
    · rw [if_neg h]
      simp only [List.mem_cons, ih]
      tauto

theorem insertDesc_perm (r : RetrievedChunk) (l : List RetrievedChunk) :
    (insertDesc r l).Perm (r :: l) := by
  induction l with
  | nil => simp [insertDesc]
  | cons y ys ih =>
    unfold insertDesc
    by_cases h : y.similarity < r.similarity
    · rw [if_pos h]
    · rw [if_neg h]
      exact (List.Perm.cons y ih).trans (List.Perm.swap r y ys)

theorem sorted_insertDesc (r : RetrievedChunk) (l : List RetrievedChunk)
    (h : SortedBySimDesc l) : SortedBySimDesc (insertDesc r l) := by
  induction l with
  | nil => simp [insertDesc, SortedBySimDesc]
  | cons y ys ih =>
    unfold insertDesc
    rw [SortedBySimDesc, List.pairwise_cons] at h
    obtain ⟨hy, hys⟩ := h
    by_cases hc : y.similarity < r.similarity
    · rw [if_pos hc]
      rw [SortedBySimDesc, List.pairwise_cons]
      refine ⟨?_, ?_⟩
      · intro b hb
        rcases List.mem_cons.mp hb with hb | hb
        · rw [hb]; exact le_of_lt hc
        · exact le_trans (hy b hb) (le_of_lt hc)
      · rw [List.pairwise_cons]
        exact ⟨hy, hys⟩
    · rw [if_neg hc]
      rw [SortedBySimDesc, List.pairwise_cons]
      refine ⟨?_, ih hys⟩
      intro b hb
      rcases (mem_insertDesc b r ys).mp hb with hb | hb
      · rw [hb]; exact le_of_not_lt hc
      · exact hy b hb

theorem sorted_foldl_insertDesc (l acc : List RetrievedChunk) (h : SortedBySimDesc acc) :
    SortedBySimDesc (l.foldl (fun acc r => insertDesc r acc) acc) := by
  induction l generalizing acc with
  | nil => exact h
  | cons r rest ih => exact ih _ (sorted_insertDesc r acc h)

theorem sorted_sortBySimDesc (l : List RetrievedChunk) : SortedBySimDesc (sortBySimDesc l) :=
  sorted_foldl_insertDesc l [] (by simp [SortedBySimDesc])

theorem foldl_insertDesc_perm (l acc : List RetrievedChunk) :
    (l.foldl (fun acc r => insertDesc r acc) acc).Perm (acc ++ l) := by
  induction l generalizing acc with
  | nil => simp
  | cons r rest ih =>
    rw [List.foldl_cons]
    have h1 := ih (insertDesc r acc)
    have h2 : (insertDesc r acc ++ rest).Perm ((r :: acc) ++ rest) :=
      List.Perm.append_right rest (insertDesc_perm r acc)
    exact h1.trans (h2.trans List.perm_middle.symm)

theorem sortBySimDesc_perm (l : List RetrievedChunk) : (sortBySimDesc l).Perm l := by
  have h := foldl_insertDesc_perm l []
  simpa [sortBySimDesc] using h

end Retriever

namespace Retriever

/-- The per-identity effect of one dedup step on the stored entry for that
identity: a missing key is inserted; a present entry is replaced exactly
when the incoming similarity is non-zero (truthy) and strictly higher. -/
def applyRule (cur : Option RetrievedChunk) (r : RetrievedChunk) : Option RetrievedChunk :=
  match cur with
  | none => some r
  | some e => if r.similarity ≠ 0 ∧ e.similarity < r.similarity then some r else some e

theorem decide_and_eq_false {A B : Prop} [Decidable A] [Decidable B] (h : ¬(A ∧ B)) :
    (decide A && decide B) = false := by
  by_cases hA : A
  · have hB : ¬B := fun hB => h ⟨hA, hB⟩
    rw [decide_eq_true hA, decide_eq_false hB]
    rfl
  · rw [decide_eq_false hA]
    rfl

theorem dedupStep_of_not_has (m : List RetrievedChunk) (r : RetrievedChunk)
    (h : hasKey m r.id = false) : dedupStep m r = m ++ [r] := by
  unfold dedupStep
  rw [h]
  simp

theorem find?_none_of_not_has (m : List RetrievedChunk) (key : Nat)
    (h : hasKey m key = false) : m.find? (fun x => x.id == key) = none := by
  rw [List.find?_eq_none]
  intro x hx
  rw [hasKey, List.any_eq_false] at h
  exact h x hx

theorem find?_replace_eq (m : List RetrievedChunk) (r e : RetrievedChunk)
    (hf : m.find? (fun x => x.id == r.id) = some e) :
    (m.map (fun x => if x.id == r.id then r else x)).find? (fun x => x.id == r.id) = some r := by
  induction m with
  | nil => simp at hf
  | cons x xs ih =>
    by_cases hpx : (x.id == r.id) = true
    · rw [List.map_cons, if_pos hpx, List.find?_cons_of_pos _ (by simp)]
    · rw [List.find?_cons_of_neg _ (by simp [hpx])] at hf
      rw [List.map_cons, if_neg (by simp [hpx]), List.find?_cons_of_neg _ (by simp [hpx])]
      exact ih hf

theorem find?_replace_ne (m : List RetrievedChunk) (r : RetrievedChunk) (i : Nat)
    (hne : (r.id == i) = false) :
    (m.map (fun x => if x.id == r.id then r else x)).find? (fun x => x.id == i)
      = m.find? (fun x => x.id == i) := by
  induction m with
  | nil => rfl
  | cons x xs ih =>
    rw [List.map_cons]
    by_cases hx : (x.id == r.id) = true
    · have hxi : (x.id == i) = false := by
        have hxr : x.id = r.id := by simpa using hx
        rw [hxr]; exact hne
      rw [if_pos hx]
      simp only [List.find?_cons, hne, hxi]
      exact ih
    · rw [if_neg hx]
      simp only [List.find?_cons]
      cases hxi : (x.id == i) with
      | false => simpa using ih
      | true => simp

theorem find?_dedupStep_eq (m : List RetrievedChunk) (r : RetrievedChunk) :
    (dedupStep m r).find? (fun x => x.id == r.id) =
      applyRule (m.find? (fun x => x.id == r.id)) r := by
  by_cases hhk : hasKey m r.id = true
  · obtain ⟨e1, he1, hpe⟩ := List.any_eq_true.mp hhk
    have hsome : (m.find? (fun x => x.id == r.id)).isSome = true :=
      List.find?_isSome.mpr ⟨e1, he1, hpe⟩
    obtain ⟨e0, hf⟩ := Option.isSome_iff_exists.mp hsome
    have hsim : storedSimilarity m r.id = e0.similarity := by
      rw [storedSimilarity, hf]; rfl
    by_cases hcond : r.similarity ≠ 0 ∧ e0.similarity < r.similarity
    · have hstep : dedupStep m r = m.map (fun x => if x.id == r.id then r else x) := by
        unfold dedupStep
        rw [hhk, hsim, decide_eq_true hcond.1, decide_eq_true hcond.2]
        simp
      rw [hstep, find?_replace_eq m r e0 hf, hf, applyRule, if_pos hcond]
    · have hstep : dedupStep m r = m := by
        unfold dedupStep
        rw [hhk, hsim, decide_and_eq_false hcond]
        simp
      rw [hstep, hf, applyRule, if_neg hcond]
  · have hhk' : hasKey m r.id = false := by
      cases h : hasKey m r.id
      · rfl
      · exact absurd h hhk
    rw [dedupStep_of_not_has m r hhk', List.find?_append,
      find?_none_of_not_has m r.id hhk']
    simp [applyRule]

theorem find?_dedupStep_ne (m : List RetrievedChunk) (r : RetrievedChunk) (i : Nat)
    (hne : (r.id == i) = false) :
    (dedupStep m r).find? (fun x => x.id == i) = m.find? (fun x => x.id == i) := by
  unfold dedupStep
  by_cases houter : (!hasKey m r.id ||
      (decide (r.similarity ≠ 0) && decide (storedSimilarity m r.id < r.similarity))) = true
  · rw [if_pos houter]
    by_cases hhk : hasKey m r.id = true
    · rw [if_pos hhk]
      exact find?_replace_ne m r i hne
    · rw [if_neg hhk, List.find?_append]
      have : List.find? (fun x => x.id == i) [r] = none := by
        simp [List.find?, hne]
      rw [this]
      simp
  · rw [if_neg houter]

theorem find?_foldl_dedupStep (l : List RetrievedChunk) (m : List RetrievedChunk) (i : Nat) :
    ((l.foldl dedupStep m).find? (fun x => x.id == i)) =
      (l.filter (fun r => r.id == i)).foldl applyRule (m.find? (fun x => x.id == i)) := by
  induction l generalizing m with
  | nil => rfl
  | cons r rest ih =>
    rw [List.foldl_cons, ih (dedupStep m r)]
    by_cases hri : (r.id == i) = true
    · have hid : r.id = i := by simpa using hri
      subst hid
      rw [List.filter_cons_of_pos (by simp), List.foldl_cons, find?_dedupStep_eq m r]
    · have hri' : (r.id == i) = false := by simpa using hri
      rw [List.filter_cons_of_neg (by simp [hri']), find?_dedupStep_ne m r i hri']
end Retriever

namespace Retriever

/-- No two entries of the map share an id. -/
def IdNodup (m : List RetrievedChunk) : Prop :=
  m.Pairwise (fun a b => a.id ≠ b.id)

theorem idNodup_dedupStep (m : List RetrievedChunk) (r : RetrievedChunk) (h : IdNodup m) :
    IdNodup (dedupStep m r) := by
  unfold dedupStep
  by_cases houter : (!hasKey m r.id ||
      (decide (r.similarity ≠ 0) && decide (storedSimilarity m r.id < r.similarity))) = true
  · rw [if_pos houter]
    by_cases hhk : hasKey m r.id = true
    · rw [if_pos hhk]
      rw [IdNodup, List.pairwise_map]
      have hid : ∀ x : RetrievedChunk, (if x.id == r.id then r else x).id = x.id := by
        intro x
        by_cases hx : (x.id == r.id) = true
        · rw [if_pos hx]
          have : x.id = r.id := by simpa using hx
          rw [this]
        · rw [if_neg hx]
      exact h.imp (by intro a b hab; rw [hid a, hid b]; exact hab)
    · rw [if_neg hhk]
      have hhk' : hasKey m r.id = false := by
        cases hcase : hasKey m r.id
        · rfl
        · exact absurd hcase hhk
      rw [IdNodup, List.pairwise_append]
      refine ⟨h, List.pairwise_singleton _ _, ?_⟩
      intro a ha b hb
      rw [List.mem_singleton.mp hb]
      rw [hasKey, List.any_eq_false] at hhk'
      intro heq
      exact hhk' a ha (by simp [heq])
  · rw [if_neg houter]
    exact h

theorem idNodup_foldl (l m : List RetrievedChunk) (h : IdNodup m) :
    IdNodup (l.foldl dedupStep m) := by
  induction l generalizing m with
  | nil => exact h
  | cons r rest ih => exact ih _ (idNodup_dedupStep m r h)

theorem idNodup_mergeDedup (l : List RetrievedChunk) : IdNodup (mergeDedup l) :=
  idNodup_foldl l [] (by simp [IdNodup])

theorem countP_le_one_of_idNodup (m : List RetrievedChunk) (i : Nat) (h : IdNodup m) :
    m.countP (fun x => x.id == i) ≤ 1 := by
  induction m with
  | nil => simp
  | cons x xs ih =>
    rw [IdNodup, List.pairwise_cons] at h
    obtain ⟨hx, hxs⟩ := h
    rw [List.countP_cons]
    by_cases hpx : (x.id == i) = true
    · have h0 : xs.countP (fun x => x.id == i) = 0 := by
        rw [List.countP_eq_zero]
        intro a ha hpa
        have hxi : x.id = i := by simpa using hpx
        have hai : a.id = i := by simpa using hpa
        exact hx a ha (hxi.trans hai.symm)
      rw [h0]
      simp [hpx]
    · rw [if_neg hpx]
      have := ih hxs
      omega

theorem find?_eq_of_mem_idNodup (m : List RetrievedChunk) (r : RetrievedChunk) (i : Nat)
    (h : IdNodup m) (hm : r ∈ m) (hr : (r.id == i) = true) :
    m.find? (fun x => x.id == i) = some r := by
  induction m with
  | nil => simp at hm
  | cons x xs ih =>
    rw [IdNodup, List.pairwise_cons] at h
    obtain ⟨hx, hxs⟩ := h
    rcases List.mem_cons.mp hm with hm | hm
    · rw [← hm]
      exact List.find?_cons_of_pos _ hr
    · by_cases hpx : (x.id == i) = true
      · exfalso
        have hxi : x.id = i := by simpa using hpx
        have hri : r.id = i := by simpa using hr
        exact hx r hm (hxi.trans hri.symm)
      · have hpx' : (x.id == i) = false := by simpa using hpx
        simp only [List.find?_cons, hpx']
        exact ih hxs hm

theorem countP_eq_one_of_find?_some (m : List RetrievedChunk) (i : Nat) (e : RetrievedChunk)
    (h : IdNodup m) (hf : m.find? (fun x => x.id == i) = some e) :
    m.countP (fun x => x.id == i) = 1 := by
  have h1 := countP_le_one_of_idNodup m i h
  have hmem := List.mem_of_find?_eq_some hf
  have hp := List.find?_some hf
  have h2 : 0 < m.countP (fun x => x.id == i) :=
    List.countP_pos_iff.mpr ⟨e, hmem, hp⟩
  omega

theorem foldl_applyRule_pair (rv rk : RetrievedChunk) (hk : rk.similarity = 1 / 2) :
    [rv, rk].foldl applyRule none = some (if rv.similarity < 1 / 2 then rk else rv) := by
  rw [List.foldl_cons, List.foldl_cons, List.foldl_nil]
  show applyRule (some rv) rk = some (if rv.similarity < 1 / 2 then rk else rv)
  rw [applyRule, hk]
  by_cases hlt : rv.similarity < 1 / 2
  · rw [if_pos ⟨by norm_num, hlt⟩, if_pos hlt]
  · rw [if_neg (fun hc => hlt hc.2), if_neg hlt]

end Retriever

namespace Retriever

/-- C9: if the query-embedding call inside retrieve throws, retrieve
returns the empty sequence instead of propagating the error: the whole
body of `retrieveRelevantChunks` is wrapped in a try/catch whose catch
returns `[]`, so retrieval degrades to no context. -/
theorem c9_embed_failure_returns_empty (vectorResults : Option (List RetrievedChunk))
    (textResults : Option (List ChunkRow)) (query : String) (topK : Nat) :
    retrieveRelevantChunks false vectorResults textResults query topK = [] := rfl

/-- C7: the keyword fallback search is issued iff the vector result count
(0 on a null result) is below 3 and at least one keyword survives
derivation (lowercase, split on whitespace, keep tokens longer than 3
characters, first 5 survivors in order); every keyword-fallback result is
assigned the fixed default similarity 0.5; and the query "a is it", having
no token longer than 3 characters, yields no keywords, so the fallback
never runs for it even with sparse vector results. -/
theorem c7_keyword_fallback_trigger (vectorResults : Option (List RetrievedChunk)) (query : String)
    (textResults : Option (List ChunkRow)) :
    (keywordFallbackRuns vectorResults query = true ↔
      ((vectorList vectorResults).length < 3 ∧ keywordsOf query ≠ [])) ∧
    (∀ r ∈ keywordResults vectorResults query textResults, r.similarity = 1 / 2) ∧
    keywordsOf "a is it" = [] ∧
    (∀ v, keywordFallbackRuns v "a is it" = false) := by
  refine ⟨?_, keywordResults_similarity vectorResults query textResults, by decide, ?_⟩
  · unfold keywordFallbackRuns
    cases vectorResults with
    | none => simp [vectorList]
    | some l => simp [vectorList]
  · intro v
    unfold keywordFallbackRuns
    have h : (keywordsOf "a is it").isEmpty = true := by decide
    rw [h]
    simp

/-- C7 witness: with one sparse vector channel and the query
"hello worlds", the fallback runs, and a concrete keyword row receives
similarity 0.5. -/
theorem c7_keyword_fallback_trigger_witness :
    keywordFallbackRuns (some []) "hello worlds" = true ∧
    (⟨3, 4, "c", keywordDefaultSimilarity⟩ : RetrievedChunk).similarity = 1 / 2 := by
  constructor
  · exact (c7_keyword_fallback_trigger (some []) "hello worlds" (some [])).1.mpr
      ⟨by decide, by decide⟩
  · exact (c7_keyword_fallback_trigger (some []) "hello worlds"
        (some [⟨3, 4, "c"⟩])).2.1 ⟨3, 4, "c", keywordDefaultSimilarity⟩
      (List.mem_singleton.mpr rfl)

/-- C6: for every query and topK > 0, retrieve returns at most topK
entries and the result is sorted by similarity in descending order. -/
theorem c6_topk_and_sorted_desc (embedOk : Bool) (vectorResults : Option (List RetrievedChunk))
    (textResults : Option (List ChunkRow)) (query : String) (topK : Nat) (h : 0 < topK) :
    (retrieveRelevantChunks embedOk vectorResults textResults query topK).length ≤ topK ∧
    SortedBySimDesc (retrieveRelevantChunks embedOk vectorResults textResults query topK) := by
  cases embedOk with
  | false => refine ⟨?_, ?_⟩ <;> simp [retrieveRelevantChunks, SortedBySimDesc]
  | true =>
    have hretr : retrieveRelevantChunks true vectorResults textResults query topK =
        (sortBySimDesc (mergeDedup (vectorList vectorResults ++
          keywordResults vectorResults query textResults))).take topK := rfl
    rw [hretr]
    constructor
    · rw [List.length_take]
      exact min_le_left _ _
    · exact List.Pairwise.sublist (List.take_sublist _ _) (sorted_sortBySimDesc _)

/-- A concrete vector-search row with similarity 2/5 (a graded score below
the keyword default). -/
def cexVector : RetrievedChunk := ⟨1, 7, "alpha", 2 / 5⟩

/-- The same chunk as returned by the keyword text search. -/
def cexRow : ChunkRow := ⟨1, 7, "alpha"⟩

/-- The keyword-fallback entry built from `cexRow`. -/
def cexKeyword : RetrievedChunk := ⟨1, 7, "alpha", keywordDefaultSimilarity⟩

/-- C6 witness: concrete inputs with topK = 2. -/
theorem c6_topk_and_sorted_desc_witness :
    0 < 2 ∧
    ((retrieveRelevantChunks true (some [cexVector]) (some [cexRow]) "alphabet soup" 2).length ≤ 2 ∧
      SortedBySimDesc (retrieveRelevantChunks true (some [cexVector]) (some [cexRow]) "alphabet soup" 2)) :=
  ⟨by omega,
    c6_topk_and_sorted_desc true (some [cexVector]) (some [cexRow]) "alphabet soup" 2 (by omega)⟩

theorem hasKey_cexVector : hasKey [cexVector] cexKeyword.id = true := rfl

theorem storedSimilarity_cexVector : storedSimilarity [cexVector] cexKeyword.id = 2 / 5 := rfl

theorem dedupStep_cex : dedupStep [cexVector] cexKeyword = [cexKeyword] := by
  unfold dedupStep
  rw [hasKey_cexVector, storedSimilarity_cexVector]
  have hd1 : decide (cexKeyword.similarity ≠ 0) = true := by
    rw [decide_eq_true_eq]
    show keywordDefaultSimilarity ≠ 0
    norm_num [keywordDefaultSimilarity]
  have hd2 : decide ((2 : ℚ) / 5 < cexKeyword.similarity) = true := by
    rw [decide_eq_true_eq]
    show (2 : ℚ) / 5 < keywordDefaultSimilarity
    norm_num [keywordDefaultSimilarity]
  rw [hd1, hd2]
  simp [cexVector, cexKeyword]

theorem mergeDedup_cex : mergeDedup [cexVector, cexKeyword] = [cexKeyword] := by
  show dedupStep (dedupStep [] cexVector) cexKeyword = [cexKeyword]
  rw [show dedupStep [] cexVector = [cexVector] from rfl]
  exact dedupStep_cex

theorem keywordResults_cex :
    keywordResults (some [cexVector]) "alphabet soup" (some [cexRow]) = [cexKeyword] := by
  unfold keywordResults
  rw [if_pos (show keywordFallbackRuns (some [cexVector]) "alphabet soup" = true by decide)]
  rfl

/-- C1 counterexample: the claim says the vector similarity always wins
for an id present in both channels.  With vector similarity 2/5 for id 1
and a keyword match for the same id, retrieve returns the id once but with
the keyword default similarity 1/2, because the dedup keeps the
numerically higher score, not the vector score. -/
theorem c1_dedup_counterexample :
    (retrieveRelevantChunks true (some [cexVector]) (some [cexRow]) "alphabet soup" 10).map
        RetrievedChunk.similarity = [1 / 2] ∧
    cexVector.similarity = 2 / 5 ∧ ((2 : ℚ) / 5 ≠ 1 / 2) := by
  refine ⟨?_, rfl, by norm_num⟩
  have hretr : retrieveRelevantChunks true (some [cexVector]) (some [cexRow]) "alphabet soup" 10 =
      (sortBySimDesc (mergeDedup (vectorList (some [cexVector]) ++
        keywordResults (some [cexVector]) "alphabet soup" (some [cexRow])))).take 10 := rfl
  rw [hretr, keywordResults_cex,
    show vectorList (some [cexVector]) ++ [cexKeyword] = [cexVector, cexKeyword] from rfl,
    mergeDedup_cex]
  show [cexKeyword.similarity] = [1 / 2]
  rw [show cexKeyword.similarity = keywordDefaultSimilarity from rfl, keywordDefaultSimilarity_eq]

/-- C1 (amended): if a chunk id appears once in the vector result set and
once in the keyword-fallback result set, the merged deduplicated candidate
set contains it exactly once, with the HIGHER of the vector similarity and
the keyword default 0.5 (the vector score wins only when it is at least
0.5; a keyword default can overwrite a lower vector score); the final
output contains the id at most once (it may be truncated away by topK) and
any occurrence carries that same maximal similarity. -/
theorem c1_dedup_exactly_once_max_similarity
    (vectorResults : Option (List RetrievedChunk)) (query : String)
    (textResults : Option (List ChunkRow)) (topK : Nat) (i : Nat) (rv rk : RetrievedChunk)
    (hv : (vectorList vectorResults).filter (fun r => r.id == i) = [rv])
    (hk : (keywordResults vectorResults query textResults).filter (fun r => r.id == i) = [rk]) :
    (mergeDedup (vectorList vectorResults ++ keywordResults vectorResults query textResults)).countP
        (fun r => r.id == i) = 1 ∧
    (∀ r ∈ mergeDedup (vectorList vectorResults ++ keywordResults vectorResults query textResults),
        r.id = i → r.similarity = max rv.similarity (1 / 2)) ∧
    (retrieveRelevantChunks true vectorResults textResults query topK).countP
        (fun r => r.id == i) ≤ 1 ∧
    (∀ r ∈ retrieveRelevantChunks true vectorResults textResults query topK,
        r.id = i → r.similarity = max rv.similarity (1 / 2)) := by
  have hks : rk.similarity = 1 / 2 := by
    have h1 : rk ∈ (keywordResults vectorResults query textResults).filter (fun r => r.id == i) := by
      rw [hk]; exact List.mem_singleton.mpr rfl
    exact keywordResults_similarity vectorResults query textResults rk (List.mem_filter.mp h1).1
  have hfilter : (vectorList vectorResults ++
      keywordResults vectorResults query textResults).filter (fun r => r.id == i) = [rv, rk] := by
    rw [List.filter_append, hv, hk]
    rfl
  have hfind : (mergeDedup (vectorList vectorResults ++
      keywordResults vectorResults query textResults)).find? (fun x => x.id == i)
      = some (if rv.similarity < 1 / 2 then rk else rv) := by
    rw [mergeDedup, find?_foldl_dedupStep, hfilter]
    exact foldl_applyRule_pair rv rk hks
  have hnodup := idNodup_mergeDedup (vectorList vectorResults ++
    keywordResults vectorResults query textResults)
  have hsimval : (if rv.similarity < 1 / 2 then rk else rv).similarity
      = max rv.similarity (1 / 2) := by
    by_cases hlt : rv.similarity < 1 / 2
    · rw [if_pos hlt, hks, max_eq_right (le_of_lt hlt)]
    · rw [if_neg hlt, max_eq_left (le_of_not_lt hlt)]
  have hcount := countP_eq_one_of_find?_some _ i _ hnodup hfind
  have hb : ∀ r ∈ mergeDedup (vectorList vectorResults ++
      keywordResults vectorResults query textResults),
      r.id = i → r.similarity = max rv.similarity (1 / 2) := by
    intro r hr hid
    have hfr := find?_eq_of_mem_idNodup _ r i hnodup hr (by simp [hid])
    rw [hfind] at hfr
    have heq : (if rv.similarity < 1 / 2 then rk else rv) = r := Option.some_inj.mp hfr
    rw [← heq, hsimval]
  have hretr : retrieveRelevantChunks true vectorResults textResults query topK =
      (sortBySimDesc (mergeDedup (vectorList vectorResults ++
        keywordResults vectorResults query textResults))).take topK := rfl
  refine ⟨hcount, hb, ?_, ?_⟩
  · rw [hretr]
    have h1 : ((sortBySimDesc (mergeDedup (vectorList vectorResults ++
        keywordResults vectorResults query textResults))).take topK).countP (fun r => r.id == i)
        ≤ (sortBySimDesc (mergeDedup (vectorList vectorResults ++
        keywordResults vectorResults query textResults))).countP (fun r => r.id == i) :=
      List.Sublist.countP_le _ (List.take_sublist _ _)
    have h2 := List.Perm.countP_eq (fun r => r.id == i) (sortBySimDesc_perm (mergeDedup
      (vectorList vectorResults ++ keywordResults vectorResults query textResults)))
    omega
  · intro r hr hid
    rw [hretr] at hr
    have hr1 := List.Sublist.mem hr (List.take_sublist _ _)
    have hr2 := (List.Perm.mem_iff (sortBySimDesc_perm _)).mp hr1
    exact hb r hr2 hid

/-- C1 witness: concrete inputs where id 1 is in both channels. -/
theorem c1_dedup_exactly_once_max_similarity_witness :
    (mergeDedup (vectorList (some [cexVector]) ++
        keywordResults (some [cexVector]) "alphabet soup" (some [cexRow]))).countP
      (fun r => r.id == 1) = 1 :=
  (c1_dedup_exactly_once_max_similarity (some [cexVector]) "alphabet soup" (some [cexRow]) 10 1
    cexVector cexKeyword rfl rfl).1

end Retriever

namespace Chunker

/-- JavaScript strings are modelled as character lists so the index
arithmetic of `chunkText` (src/utils/text-chunking.ts) is explicit. -/
abbrev Text := List Char

/-- The `TextChunk` interface: trimmed content and production index. -/
structure TextChunk where
  content : Text
  index : Nat
deriving DecidableEq, Repr

/-- `text.replace(/\s+/g, ' ')`: each maximal whitespace run becomes a
single space.  `prevWs` records whether the previous character was
whitespace (so only the first character of a run emits the space). -/
def collapseWsAux : Bool → Text → Text
  | _, [] => []
  | prevWs, c :: rest =>
    if c.isWhitespace then
      if prevWs then collapseWsAux true rest else ' ' :: collapseWsAux true rest
    else c :: collapseWsAux false rest

def collapseWs (t : Text) : Text := collapseWsAux false t

/-- `.trim()`: drop leading and trailing whitespace. -/
def trimText (t : Text) : Text :=
  ((t.dropWhile Char.isWhitespace).reverse.dropWhile Char.isWhitespace).reverse

/-- `const cleanText = text.replace(/\s+/g, ' ').trim()`. -/
def cleanTextOf (t : Text) : Text := trimText (collapseWs t)

/-- `t.lastIndexOf(pat, upTo)`: the largest index `k ≤ upTo` at which
`pat` occurs in `t`; JavaScript's −1 (no occurrence) is `none`.  The scan
goes left to right keeping the last admissible match. -/
def lastIdxAux (pat : Text) (upTo : Nat) : Text → Nat → Option Nat → Option Nat
  | [], _, best => best
  | c :: rest, k, best =>
    lastIdxAux pat upTo rest (k + 1)
      (if k ≤ upTo ∧ pat.isPrefixOf (c :: rest) then some k else best)

def lastIndexOfFrom (pat t : Text) (upTo : Nat) : Option Nat :=
  lastIdxAux pat upTo t 0 none

/-- `Math.max` over −1-encoded positions: −1 (`none`) never wins. -/
def maxO : Option Nat → Option Nat → Option Nat
  | none, b => b
  | some x, none => some x
  | some x, some y => some (max x y)

/-- `Math.max(sentenceEnd, questionEnd, exclamationEnd)`: the rightmost of
the three sentence-terminator positions searched backward from the naive
end index. -/
def sentenceBoundary (clean : Text) (naive : Nat) : Option Nat :=
  maxO (maxO (lastIndexOfFrom ['.', ' '] clean naive)
    (lastIndexOfFrom ['?', ' '] clean naive)) (lastIndexOfFrom ['!', ' '] clean naive)

/-- The word-boundary fallback `cleanText.lastIndexOf(' ', endIndex)`,
taken when found strictly after `start`, else the naive end. -/
def wordEnd (clean : Text) (naive start : Nat) : Nat :=
  match lastIndexOfFrom [' '] clean naive with
  | some w => if start < w then w else naive
  | none => naive

/-- One iteration's end index: naive end `start + chunkSize`; when that
falls strictly before the text's end, cut one past the rightmost sentence
terminator strictly after `start`, else at the last space strictly after
`start`, else keep the naive end. -/
def computeEnd (clean : Text) (chunkSize start : Nat) : Nat :=
  if start + chunkSize < clean.length then
    match sentenceBoundary clean (start + chunkSize) with
    | some b => if start < b then b + 1 else wordEnd clean (start + chunkSize) start
    | none => wordEnd clean (start + chunkSize) start
  else start + chunkSize

/-- The advance rule: `startIndex = endIndex - overlap`, forced to
`endIndex` when that does not strictly exceed the previous start.
Natural-number subtraction truncates at 0 exactly like the guarded
JavaScript value: a negative `endIndex - overlap` is always ≤ the previous
start, so both take the forced branch. -/
def nextStart (endIndex overlap start : Nat) : Nat :=
  if endIndex - overlap ≤ start then endIndex else endIndex - overlap

/-- The `while (startIndex < cleanText.length)` loop of `chunkText`, with
explicit fuel: `none` means the fuel ran out before the loop finished.
The in-loop safety break `if (startIndex >= cleanText.length) break`
coincides with the loop condition.  A chunk is emitted (and the chunk
index incremented) only when the trimmed slice is non-empty. -/
def chunkLoop (clean : Text) (chunkSize overlap : Nat) :
    Nat → Nat → Nat → Option (List TextChunk)
  | 0, _, _ => none
  | fuel + 1, start, chunkIndex =>
    if clean.length ≤ start then some []
    else if trimText ((clean.drop start).take (computeEnd clean chunkSize start - start)) = [] then
      chunkLoop clean chunkSize overlap fuel
        (nextStart (computeEnd clean chunkSize start) overlap start) chunkIndex
    else
      (chunkLoop clean chunkSize overlap fuel
        (nextStart (computeEnd clean chunkSize start) overlap start) (chunkIndex + 1)).map
        (fun rest =>
          ⟨trimText ((clean.drop start).take (computeEnd clean chunkSize start - start)),
            chunkIndex⟩ :: rest)

/-- `chunkText` with explicit fuel for the while loop; an empty normalized
text returns `[]` before the loop. -/
def chunkTextFuel (fuel : Nat) (text : Text) (chunkSize overlap : Nat) :
    Option (List TextChunk) :=
  if (cleanTextOf text).length = 0 then some []
  else chunkLoop (cleanTextOf text) chunkSize overlap fuel 0 0

/-- `chunkText(text, chunkSize, overlap)`: fuel `length + 1` suffices
whenever `chunkSize ≥ 1` because the start index strictly increases. -/
def chunkText (text : Text) (chunkSize overlap : Nat) : List TextChunk :=
  (chunkTextFuel ((cleanTextOf text).length + 1) text chunkSize overlap).getD []

/-- The default call `chunkText(text)` with the declared defaults
`chunkSize = 1000, overlap = 500`. -/
def chunkTextDefault (text : Text) : List TextChunk := chunkText text 1000 500

/-- Termination of the while loop on the given input: some fuel finishes
it. -/
def ChunkTerminates (text : Text) (chunkSize overlap : Nat) : Prop :=
  ∃ fuel, (chunkTextFuel fuel text chunkSize overlap).isSome = true

theorem lastIdxAux_le (pat : Text) (upTo : Nat) (t : Text) :
    ∀ (k : Nat) (best : Option Nat), (∀ b, best = some b → b ≤ upTo) →
      ∀ b, lastIdxAux pat upTo t k best = some b → b ≤ upTo := by
  induction t with
  | nil => intro k best hbest b hb; exact hbest b hb
  | cons c rest ih =>
    intro k best hbest b hb
    rw [lastIdxAux] at hb
    refine ih (k + 1) _ ?_ b hb
    intro b' hb'
    by_cases hc : k ≤ upTo ∧ pat.isPrefixOf (c :: rest)
    · rw [if_pos hc] at hb'
      cases hb'
      exact hc.1
    · rw [if_neg hc] at hb'
      exact hbest b' hb'

theorem lastIndexOfFrom_le (pat t : Text) (upTo b : Nat)
    (h : lastIndexOfFrom pat t upTo = some b) : b ≤ upTo :=
  lastIdxAux_le pat upTo t 0 none (by intro b hb; cases hb) b h

theorem maxO_le (a b : Option Nat) (n : Nat) (ha : ∀ x, a = some x → x ≤ n)
    (hb : ∀ x, b = some x → x ≤ n) : ∀ x, maxO a b = some x → x ≤ n := by
  intro x hx
  cases a with
  | none => exact hb x hx
  | some y =>
    cases b with
    | none => exact ha x hx
    | some z =>
      rw [maxO] at hx
      cases hx
      exact max_le (ha y rfl) (hb z rfl)

theorem sentenceBoundary_le (clean : Text) (naive : Nat) :
    ∀ x, sentenceBoundary clean naive = some x → x ≤ naive := by
  refine maxO_le _ _ _ (maxO_le _ _ _ ?_ ?_) ?_ <;>
    exact fun x hx => lastIndexOfFrom_le _ _ _ _ hx

theorem wordEnd_le (clean : Text) (naive start : Nat) : wordEnd clean naive start ≤ naive := by
  unfold wordEnd
  cases hw : lastIndexOfFrom [' '] clean naive with
  | none => exact Nat.le_refl _
  | some w =>
    show (if start < w then w else naive) ≤ naive
    by_cases hsw : start < w
    · rw [if_pos hsw]
      exact lastIndexOfFrom_le _ _ _ _ hw
    · rw [if_neg hsw]

theorem computeEnd_le (clean : Text) (cs start : Nat) :
    computeEnd clean cs start ≤ start + cs + 1 := by
  unfold computeEnd
  by_cases hn : start + cs < clean.length
  · rw [if_pos hn]
    cases hs : sentenceBoundary clean (start + cs) with
    | none =>
      show wordEnd clean (start + cs) start ≤ start + cs + 1
      have := wordEnd_le clean (start + cs) start
      omega
    | some b =>
      show (if start < b then b + 1 else wordEnd clean (start + cs) start) ≤ start + cs + 1
      have hble := sentenceBoundary_le clean (start + cs) b hs
      by_cases hsb : start < b
      · rw [if_pos hsb]; omega
      · rw [if_neg hsb]
        have := wordEnd_le clean (start + cs) start
        omega
  · rw [if_neg hn]; omega

theorem lt_computeEnd (clean : Text) (cs start : Nat) (hcs : 1 ≤ cs) :
    start < computeEnd clean cs start := by
  unfold computeEnd
  have hword : start < wordEnd clean (start + cs) start := by
    unfold wordEnd
    cases hw : lastIndexOfFrom [' '] clean (start + cs) with
    | none => show start < start + cs; omega
    | some w =>
      show start < if start < w then w else start + cs
      by_cases hsw : start < w
      · rw [if_pos hsw]; exact hsw
      · rw [if_neg hsw]; omega
  by_cases hn : start + cs < clean.length
  · rw [if_pos hn]
    cases hs : sentenceBoundary clean (start + cs) with
    | none => exact hword
    | some b =>
      show start < if start < b then b + 1 else wordEnd clean (start + cs) start
      by_cases hsb : start < b
      · rw [if_pos hsb]; omega
      · rw [if_neg hsb]; exact hword
  · rw [if_neg hn]; omega

theorem lt_nextStart (e ov start : Nat) (h : start < e) : start < nextStart e ov start := by
  unfold nextStart
  by_cases hc : e - ov ≤ start
  · rw [if_pos hc]; exact h
  · rw [if_neg hc]; omega

theorem chunkLoop_isSome (clean : Text) (cs ov : Nat) (hcs : 1 ≤ cs) :
    ∀ fuel start chunkIndex, clean.length - start < fuel →
      (chunkLoop clean cs ov fuel start chunkIndex).isSome = true := by
  intro fuel
  induction fuel with
  | zero => intro start ci h; omega
  | succ n ih =>
    intro start ci h
    rw [chunkLoop]
    by_cases hlen : clean.length ≤ start
    · rw [if_pos hlen]; rfl
    · rw [if_neg hlen]
      have hprog : start < nextStart (computeEnd clean cs start) ov start :=
        lt_nextStart _ _ _ (lt_computeEnd clean cs start hcs)
      have hfuel : clean.length - nextStart (computeEnd clean cs start) ov start < n := by omega
      by_cases hcont :
          trimText ((clean.drop start).take (computeEnd clean cs start - start)) = []
      · rw [if_pos hcont]
        exact ih _ ci hfuel
      · rw [if_neg hcont]
        have hrec := ih _ (ci + 1) hfuel
        cases hc : chunkLoop clean cs ov n
            (nextStart (computeEnd clean cs start) ov start) (ci + 1) with
        | none => rw [hc] at hrec; simp at hrec
        | some rest => rfl

end Chunker

namespace Chunker

/-- C3 (amended): for every input text and every chunkSize ≥ 1 — in
particular for every overlap ≥ chunkSize — segment terminates: the
boundary-seeking end index strictly exceeds the start whenever
chunkSize ≥ 1, so the forced-progress rule makes the start index strictly
increase on every loop iteration.  (For chunkSize = 0 the start index can
fail to advance and the loop never finishes; see the counterexample.) -/
theorem c3_terminates_for_positive_chunk_size (text : Text) (chunkSize overlap : Nat)
    (hcs : 1 ≤ chunkSize) : ChunkTerminates text chunkSize overlap := by
  refine ⟨(cleanTextOf text).length + 1, ?_⟩
  unfold chunkTextFuel
  by_cases h0 : (cleanTextOf text).length = 0
  · rw [if_pos h0]; rfl
  · rw [if_neg h0]
    exact chunkLoop_isSome (cleanTextOf text) chunkSize overlap hcs _ 0 0 (by omega)

/-- C3 witness: chunkSize 1 with overlap 5 ≥ 1 on a concrete text. -/
theorem c3_terminates_for_positive_chunk_size_witness :
    1 ≤ 1 ∧ ChunkTerminates ['a', 'b'] 1 5 :=
  ⟨Nat.le_refl 1, c3_terminates_for_positive_chunk_size ['a', 'b'] 1 5 (Nat.le_refl 1)⟩

theorem chunkLoop_zero_size_fixpoint (fuel ci : Nat) :
    chunkLoop ['a'] 0 0 fuel 0 ci = none := by
  induction fuel with
  | zero => rfl
  | succ n ih =>
    have hstep : chunkLoop ['a'] 0 0 (n + 1) 0 ci = chunkLoop ['a'] 0 0 n 0 ci := rfl
    rw [hstep]
    exact ih

/-- C3 counterexample: with chunkSize = 0 and overlap = 0 (a pair with
overlap ≥ chunkSize, inside the claim's quantification), the loop on the
one-character text "a" never makes progress — the end index stays at the
start, the empty trimmed slice is skipped, and the forced advance sets the
start back to the same position — so segment does not terminate. -/
theorem c3_zero_chunk_size_diverges : 0 ≤ 0 ∧ ¬ ChunkTerminates ['a'] 0 0 := by
  refine ⟨Nat.le_refl 0, ?_⟩
  rintro ⟨fuel, hsome⟩
  have heq : chunkTextFuel fuel ['a'] 0 0 = chunkLoop ['a'] 0 0 fuel 0 0 := rfl
  rw [heq, chunkLoop_zero_size_fixpoint fuel 0] at hsome
  simp at hsome

theorem trimText_length_le (t : Text) : (trimText t).length ≤ t.length := by
  unfold trimText
  have h1 : (t.dropWhile Char.isWhitespace).length ≤ t.length :=
    (List.dropWhile_sublist _).length_le
  have h2 : ((t.dropWhile Char.isWhitespace).reverse.dropWhile Char.isWhitespace).length ≤
      (t.dropWhile Char.isWhitespace).reverse.length :=
    (List.dropWhile_sublist _).length_le
  rw [List.length_reverse] at h2
  rw [List.length_reverse]
  omega

theorem chunk_content_le (clean : Text) (cs ov : Nat) :
    ∀ fuel start ci res, chunkLoop clean cs ov fuel start ci = some res →
      ∀ c ∈ res, c.content.length ≤ cs + 1 := by
  intro fuel
  induction fuel with
  | zero => intro start ci res h; simp [chunkLoop] at h
  | succ n ih =>
    intro start ci res h
    rw [chunkLoop] at h
    by_cases hlen : clean.length ≤ start
    · rw [if_pos hlen] at h
      cases h
      intro c hc
      simp at hc
    · rw [if_neg hlen] at h
      by_cases hcont :
          trimText ((clean.drop start).take (computeEnd clean cs start - start)) = []
      · rw [if_pos hcont] at h
        exact ih _ _ _ h
      · rw [if_neg hcont] at h
        cases hrec : chunkLoop clean cs ov n
            (nextStart (computeEnd clean cs start) ov start) (ci + 1) with
        | none => rw [hrec] at h; simp at h
        | some rest =>
          rw [hrec] at h
          have hres : (⟨trimText ((clean.drop start).take (computeEnd clean cs start - start)),
              ci⟩ : TextChunk) :: rest = res := by
            simpa using h
          intro c hc
          rw [← hres] at hc
          rcases List.mem_cons.mp hc with hc | hc
          · rw [hc]
            show (trimText ((clean.drop start).take
              (computeEnd clean cs start - start))).length ≤ cs + 1
            have hlen1 : (trimText ((clean.drop start).take
                (computeEnd clean cs start - start))).length ≤
                ((clean.drop start).take (computeEnd clean cs start - start)).length :=
              trimText_length_le _
            have hlen2 : ((clean.drop start).take (computeEnd clean cs start - start)).length ≤
                computeEnd clean cs start - start := by
              rw [List.length_take]
              exact min_le_left _ _
            have hend := computeEnd_le clean cs start
            omega
          · exact ih _ _ _ hrec c hc

/-- C10: for every input text, every chunkSize ≥ 1 and any overlap, every
chunk emitted by segment has content length at most chunkSize + 1: the
sentence-boundary step can move the cut at most one character past the
naive end index (a terminator sitting exactly at the naive end gives
endIndex = position + 1), and the word-boundary and naive fallbacks never
exceed start + chunkSize; trimming only shortens the slice. -/
theorem c10_chunk_length_bound (text : Text) (chunkSize overlap : Nat)
    (hcs : 1 ≤ chunkSize) :
    ∀ c ∈ chunkText text chunkSize overlap, c.content.length ≤ chunkSize + 1 := by
  intro c hc
  unfold chunkText at hc
  cases hfu : chunkTextFuel ((cleanTextOf text).length + 1) text chunkSize overlap with
  | none => rw [hfu] at hc; simp at hc
  | some res =>
    rw [hfu] at hc
    unfold chunkTextFuel at hfu
    by_cases h0 : (cleanTextOf text).length = 0
    · rw [if_pos h0] at hfu
      cases hfu
      simp at hc
    · rw [if_neg h0] at hfu
      exact chunk_content_le (cleanTextOf text) chunkSize overlap _ 0 0 res hfu c
        (by simpa using hc)

/-- C10 witness: a concrete segmentation with chunkSize 4, checking the
bound on every produced chunk. -/
theorem c10_chunk_length_bound_witness :
    1 ≤ 4 ∧ ∀ c ∈ chunkText ['a', 'b', ' ', 'c', 'd', ' ', 'e', 'f'] 4 1,
      c.content.length ≤ 4 + 1 :=
  ⟨by omega, c10_chunk_length_bound ['a', 'b', ' ', 'c', 'd', ' ', 'e', 'f'] 4 1 (by omega)⟩

end Chunker

namespace Chunker

/-- C2 (amended): calling segment with only a text argument uses the
declared default parameters chunkSize = 1000 and overlap = 500 (not
overlap = 200): for every text, `chunkText(text)` produces exactly the
chunk sequence of `chunkText(text, 1000, 500)`. -/
theorem c2_default_call_uses_overlap_500 (text : Text) :
    chunkTextDefault text = chunkText text 1000 500 := rfl

/-- A 1002-character text with no sentence or word boundaries. -/
def c2Text : Text := List.replicate 1002 'a'

set_option maxRecDepth 10000 in
/-- C2 counterexample: on a 1002-character boundary-free text the default
call (overlap 500) produces chunks of lengths [1000, 502, 2] while
`chunkText(text, 1000, 200)` produces lengths [1000, 202]; the claim that
the default call equals the overlap-200 call is false. -/
theorem c2_default_not_overlap_200 : chunkTextDefault c2Text ≠ chunkText c2Text 1000 200 := by
  decide
end Chunker
